import Mathlib

/-!
Shallow embedding of the `listlib` dynamic array (`src/list.c`, `include/list.h`).

Modelling choices:
* The list object is `LState`: the buffer `data` is `Option (List Nat)`
  (a list of bytes, `none` for a null pointer), with `size`, `capacity`
  and `elem_size` as natural numbers (C `size_t`).
* Nullable pointer arguments are `Option _` / `Bool` flags; a missing
  pointer is `none` / `false`.
* The allocator is an oracle: each operation that may call
  `calloc`/`realloc` takes an `allocOk : Bool` telling whether that single
  allocation call succeeds.  (Each public operation performs at most one
  allocation.)
* `memcpy(dst, src, elem_size)` copies the caller's byte block; per the
  interface contract the caller supplies exactly `elem_size` bytes, so the
  block is a `List Nat` and theorems carry `v.length = elem_size` where the
  byte count matters.
* `list_set` with a null `value` pointer and an in-bounds index reaches
  `memcpy` with a null source, which is undefined behaviour in C; the model
  returns `none` (an explicit UB marker) in exactly that case.
-/

/-- C enum `list_status` from `include/list.h`. -/
inductive list_status where
  | LIST_OK
  | LIST_ERR_ALLOC
  | LIST_ERR_INVALID
  | LIST_OUT_OF_BOUNDS
deriving DecidableEq, Repr

export list_status (LIST_OK LIST_ERR_ALLOC LIST_ERR_INVALID LIST_OUT_OF_BOUNDS)

/-- C struct `list`: `void* data; size_t size; size_t capacity; size_t elem_size`.
The buffer is a byte list, `none` when `data == nullptr`. -/
structure LState where
  data : Option (List Nat)
  size : Nat
  capacity : Nat
  elem_size : Nat
deriving DecidableEq, Repr

/-- The bytes behind the data pointer (`[]` when the pointer is null). -/
def bufBytes (l : LState) : List Nat := l.data.getD []

/-- Model of `memcpy(buf + off, src, src.length)`: overwrite `src.length` bytes of
`buf` starting at offset `off`. -/
def writeBytes (buf : List Nat) (off : Nat) (src : List Nat) : List Nat :=
  buf.take off ++ src ++ buf.drop (off + src.length)

/-- Read `len` bytes of `buf` starting at offset `off`
(`memcpy(out, buf + off, len)`). -/
def bytesAt (buf : List Nat) (off len : Nat) : List Nat :=
  (buf.drop off).take len

/-- Model of `static list_status list_resize(list* lst, size_t new_capacity)`.
`realloc` preserves the old bytes (all `capacity * elem_size` of them under
the representation invariant) and the code then zero-fills
`[capacity, new_capacity)` when growing; shrinking keeps the prefix.
The null check on `lst` is absorbed by working on a value of `LState`. -/
def list_resize (lst : LState) (allocOk : Bool) (new_capacity : Nat) :
    list_status × LState :=
  if new_capacity = 0 then (LIST_ERR_INVALID, lst)
  else if new_capacity = lst.capacity then (LIST_OK, lst)
  else if allocOk = false then (LIST_ERR_ALLOC, lst)
  else
    let old := bufBytes lst
    let newBytes :=
      if lst.capacity < new_capacity then
        old ++ List.replicate ((new_capacity - lst.capacity) * lst.elem_size) 0
      else
        old.take (new_capacity * lst.elem_size)
    let sz := if new_capacity < lst.size then new_capacity else lst.size
    (LIST_OK,
      { data := some newBytes, size := sz, capacity := new_capacity,
        elem_size := lst.elem_size })

/-- Model of `static list_status list_grow(list* lst)`. -/
def list_grow (lst : LState) (allocOk : Bool) : list_status × LState :=
  list_resize lst allocOk (if lst.capacity = 0 then 1 else lst.capacity * 2)

/-- Model of `list_status list_init_with_capacity(list* lst, size_t capacity, size_t elem_size)`.
Returns the status and the state written through `lst` (`none` when the
function returns before writing any field, i.e. on the argument check).
`calloc` zero-initializes. -/
def list_init_with_capacity (capacity elem_size : Nat) (allocOk : Bool) :
    list_status × Option LState :=
  if elem_size = 0 then (LIST_ERR_INVALID, none)
  else if capacity = 0 then
    (LIST_OK, some ⟨none, 0, 0, elem_size⟩)
  else if allocOk then
    (LIST_OK, some ⟨some (List.replicate (capacity * elem_size) 0), 0, capacity, elem_size⟩)
  else
    (LIST_ERR_ALLOC, some ⟨none, 0, 0, elem_size⟩)

/-- Model of `list_status list_init(list* lst, size_t elem_size)`. -/
def list_init (elem_size : Nat) (allocOk : Bool) : list_status × Option LState :=
  list_init_with_capacity 0 elem_size allocOk

/-- Model of `void list_destroy(list* lst)`: null target is a no-op; otherwise frees
the buffer and zeroes `data`, `size`, `capacity` (note: not `elem_size`). -/
def list_destroy (lst : Option LState) : Option LState :=
  match lst with
  | none => none
  | some l => some ⟨none, 0, 0, l.elem_size⟩

/-- Model of `size_t list_size(const list* lst)`. -/
def list_size (lst : Option LState) : Nat :=
  match lst with
  | none => 0
  | some l => l.size

/-- Model of `size_t list_capacity(const list* lst)`. -/
def list_capacity (lst : Option LState) : Nat :=
  match lst with
  | none => 0
  | some l => l.capacity

/-- Model of `list_status list_push(list* lst, const void* value)`; the null check on
`lst` is kept outside (the step relation only feeds live objects), the null
check on `value` is the `Option`. -/
def list_push (lst : LState) (value : Option (List Nat)) (allocOk : Bool) :
    list_status × LState :=
  match value with
  | none => (LIST_ERR_INVALID, lst)
  | some v =>
    let step := if lst.capacity ≤ lst.size then list_grow lst allocOk else (LIST_OK, lst)
    match step with
    | (LIST_OK, l) =>
        (LIST_OK,
          { l with
            data := some (writeBytes (bufBytes l) (l.size * l.elem_size) v),
            size := l.size + 1 })
    | (err, l) => (err, l)

/-- Model of `list_status list_pop(list* lst, void* out_value)`.  `wantOut` is whether
`out_value` is non-null; the third component is what was copied into it. -/
def list_pop (lst : LState) (allocOk : Bool) (wantOut : Bool) :
    list_status × LState × Option (List Nat) :=
  if lst.data.isNone ∨ lst.size = 0 then (LIST_ERR_INVALID, lst, none)
  else
    let sz := lst.size - 1
    let out :=
      if wantOut then some (bytesAt (bufBytes lst) (sz * lst.elem_size) lst.elem_size)
      else none
    let l1 : LState := { lst with size := sz }
    if 1 < l1.capacity ∧ sz < l1.capacity / 4 then
      let nc0 := l1.capacity / 2
      let nc := if nc0 < 1 then 1 else nc0
      match list_resize l1 allocOk nc with
      | (LIST_OK, l2) => (LIST_OK, l2, out)
      | (err, l2) => (err, l2, out)
    else (LIST_OK, l1, out)

/-- Model of `list_status list_get(const list* lst, size_t index, void* out_value)`.
`wantOut` is whether `out_value` is non-null; the second component is what
was copied into it. -/
def list_get (lst : Option LState) (index : Nat) (wantOut : Bool) :
    list_status × Option (List Nat) :=
  match lst with
  | none => (LIST_ERR_INVALID, none)
  | some l =>
    if l.data.isNone ∨ wantOut = false then (LIST_ERR_INVALID, none)
    else if l.size ≤ index then (LIST_OUT_OF_BOUNDS, none)
    else (LIST_OK, some (bytesAt (bufBytes l) (index * l.elem_size) l.elem_size))

/-- Model of `list_status list_set(const list* lst, size_t index, const void* value)`.
The code checks `lst` and `lst->data` for null and the bounds, but never
`value`; reaching `memcpy` with `value == nullptr` is undefined behaviour,
modelled as the outer `none`. -/
def list_set (lst : Option LState) (index : Nat) (value : Option (List Nat)) :
    Option (list_status × Option LState) :=
  match lst with
  | none => some (LIST_ERR_INVALID, none)
  | some l =>
    if l.data.isNone then some (LIST_ERR_INVALID, some l)
    else if l.size ≤ index then some (LIST_OUT_OF_BOUNDS, some l)
    else
      match value with
      | none => none
      | some v =>
        some (LIST_OK,
          some { l with data := some (writeBytes (bufBytes l) (index * l.elem_size) v) })

/-- Model of `list_status list_peek(const list* lst, void* out_value)`. -/
def list_peek (lst : Option LState) (wantOut : Bool) :
    list_status × Option (List Nat) :=
  match lst with
  | none => (LIST_ERR_INVALID, none)
  | some l =>
    if l.data.isNone ∨ l.size = 0 ∨ wantOut = false then (LIST_ERR_INVALID, none)
    else list_get (some l) (l.size - 1) wantOut

/-- Model of `void list_clear(list* lst)` (on a live object; null target is a no-op). -/
def list_clear (lst : LState) : LState := { lst with size := 0 }

/-- Model of `const char* list_error_to_string(list_status err)`. -/
def list_error_to_string (err : list_status) : String :=
  match err with
  | LIST_OK => "No error"
  | LIST_ERR_ALLOC => "Error allocating memory"
  | LIST_ERR_INVALID => "Invalid input"
  | LIST_OUT_OF_BOUNDS => "Out of bounds access attempted"

/-- Pushing a whole list of values in order, every allocation succeeding. -/
def pushAll (l : LState) (vs : List (List Nat)) : LState :=
  vs.foldl (fun s v => (list_push s (some v) true).2) l

/-- The free region `[size, capacity)` of the buffer is all zero bytes
(decidable formulation: under the representation invariant the buffer holds
exactly `capacity * elem_size` bytes, so dropping `size * elem_size` bytes
leaves exactly the free region). -/
def freeRegionZeroed (l : LState) : Bool :=
  ((bufBytes l).drop (l.size * l.elem_size)).all (fun b => b == 0)

/-- The invariant of claim C2: `size ≤ capacity`, and `capacity = 0` exactly
when no buffer is allocated. -/
def SizeCapInv (l : LState) : Prop :=
  l.size ≤ l.capacity ∧ (l.capacity = 0 ↔ l.data = none)

/-- States reachable from a successful initialization by any sequence of
public mutating operations (with any allocator outcomes and any arguments;
failed operations leave their resulting state too).  `get`, `peek`,
`list_size` and `list_capacity` do not mutate. -/
inductive Reachable : LState → Prop where
  | init (cap es : Nat) (aOk : Bool) (l : LState)
      (h : list_init_with_capacity cap es aOk = (LIST_OK, some l)) : Reachable l
  | push (l : LState) (v : Option (List Nat)) (aOk : Bool)
      (h : Reachable l) : Reachable (list_push l v aOk).2
  | pop (l : LState) (aOk w : Bool)
      (h : Reachable l) : Reachable (list_pop l aOk w).2.1
  | set (l : LState) (i : Nat) (v : Option (List Nat)) (st : list_status)
      (l' : LState) (h : Reachable l)
      (hs : list_set (some l) i v = some (st, some l')) : Reachable l'
  | clear (l : LState) (h : Reachable l) : Reachable (list_clear l)
  | destroy (l l' : LState) (h : Reachable l)
      (hd : list_destroy (some l) = some l') : Reachable l'

/-- Invariant tying a list state to the sequence `vs` of values pushed into
it so far: the element size is `es`, the size is the number of pushed
values, the buffer holds exactly `capacity * es` bytes whose first
`size * es` bytes are the pushed values in order. -/
structure PushedInv (l : LState) (es : Nat) (vs : List (List Nat)) : Prop where
  hes : l.elem_size = es
  hsize : l.size = vs.length
  hcap : l.size ≤ l.capacity
  hsome : l.data = none → l.capacity = 0
  hlen : (bufBytes l).length = l.capacity * es
  hcontent : (bufBytes l).take (l.size * es) = vs.flatten

example : list_init 1 true = (LIST_OK, some ⟨none, 0, 0, 1⟩) := by decide
example :
    list_push ⟨none, 0, 0, 1⟩ (some [5]) true = (LIST_OK, ⟨some [5], 1, 1, 1⟩) := by
  decide
example :
    list_pop ⟨some [5], 1, 1, 1⟩ true true = (LIST_OK, ⟨some [5], 0, 1, 1⟩, some [5]) := by
  decide
example :
    pushAll ⟨none, 0, 0, 1⟩ [[1], [2], [3]] = ⟨some [1, 2, 3, 0], 3, 4, 1⟩ := by decide
example : list_get (some ⟨some [1, 2, 3, 0], 3, 4, 1⟩) 1 true = (LIST_OK, some [2]) := by
  decide

/-! ### Equations for `list_resize` and `list_pop` on resolved branches -/

lemma list_resize_shrink_eq (l : LState) (nc : Nat) (h0 : nc ≠ 0)
    (hne : nc ≠ l.capacity) (hlt : ¬ l.capacity < nc) (hsz : ¬ nc < l.size) :
    list_resize l true nc =
      (LIST_OK, ⟨some ((bufBytes l).take (nc * l.elem_size)), l.size, nc, l.elem_size⟩) := by
  unfold list_resize
  simp [h0, hne, hlt, hsz]

lemma list_resize_grow_eq (l : LState) (nc : Nat) (h0 : nc ≠ 0)
    (hne : nc ≠ l.capacity) (hlt : l.capacity < nc) (hsz : ¬ nc < l.size) :
    list_resize l true nc =
      (LIST_OK,
       ⟨some (bufBytes l ++ List.replicate ((nc - l.capacity) * l.elem_size) 0),
        l.size, nc, l.elem_size⟩) := by
  unfold list_resize
  simp [h0, hne, hlt, hsz]

lemma list_resize_fail_eq (l : LState) (nc : Nat) (h0 : nc ≠ 0)
    (hne : nc ≠ l.capacity) :
    list_resize l false nc = (LIST_ERR_ALLOC, l) := by
  unfold list_resize
  simp [h0, hne]

lemma list_pop_noshrink_eq (l : LState) (aOk w : Bool) (hd : l.data.isSome)
    (hs : 0 < l.size)
    (hsh : ¬ (1 < l.capacity ∧ l.size - 1 < l.capacity / 4)) :
    list_pop l aOk w =
      (LIST_OK, { l with size := l.size - 1 },
       if w then some (bytesAt (bufBytes l) ((l.size - 1) * l.elem_size) l.elem_size)
       else none) := by
  obtain ⟨buf, hbuf⟩ := Option.isSome_iff_exists.mp hd
  unfold list_pop
  simp [hbuf, hs.ne', hsh]

lemma list_pop_shrink_true_eq (l : LState) (w : Bool) (hd : l.data.isSome)
    (hs : 0 < l.size)
    (hsh : 1 < l.capacity ∧ l.size - 1 < l.capacity / 4) :
    list_pop l true w =
      (LIST_OK,
       ⟨some ((bufBytes l).take (l.capacity / 2 * l.elem_size)), l.size - 1,
        l.capacity / 2, l.elem_size⟩,
       if w then some (bytesAt (bufBytes l) ((l.size - 1) * l.elem_size) l.elem_size)
       else none) := by
  obtain ⟨buf, hbuf⟩ := Option.isSome_iff_exists.mp hd
  unfold list_pop
  have hnc : l.capacity / 2 ≠ 0 := by omega
  have hnc' : ¬ l.capacity / 2 < 1 := by omega
  have hr := list_resize_shrink_eq { l with size := l.size - 1 } (l.capacity / 2)
    (by omega) (by simp; omega) (by simp; omega) (by simp; omega)
  simp [hbuf, bufBytes, hs.ne', hsh, hnc, hnc'] at hr ⊢
  rw [hr]

lemma list_pop_shrink_false_eq (l : LState) (w : Bool) (hd : l.data.isSome)
    (hs : 0 < l.size)
    (hsh : 1 < l.capacity ∧ l.size - 1 < l.capacity / 4) :
    list_pop l false w =
      (LIST_ERR_ALLOC, { l with size := l.size - 1 },
       if w then some (bytesAt (bufBytes l) ((l.size - 1) * l.elem_size) l.elem_size)
       else none) := by
  obtain ⟨buf, hbuf⟩ := Option.isSome_iff_exists.mp hd
  unfold list_pop
  have hnc : l.capacity / 2 ≠ 0 := by omega
  have hnc' : ¬ l.capacity / 2 < 1 := by omega
  have hr := list_resize_fail_eq { l with size := l.size - 1 } (l.capacity / 2)
    (by omega) (by simp; omega)
  simp [hbuf, bufBytes, hs.ne', hsh, hnc, hnc'] at hr ⊢
  rw [hr]

/-- C4: after every successful pop, a shrink happens iff the post-decrement
state satisfies `capacity > 1 ∧ size < capacity / 4`; when it happens the
capacity becomes `max 1 (capacity / 2)` (which here is `capacity / 2`), and
otherwise the capacity is unchanged. -/
theorem pop_shrink_condition (l : LState) (w : Bool) (hd : l.data.isSome)
    (hs : 0 < l.size) :
    (list_pop l true w).1 = LIST_OK ∧
    (list_pop l true w).2.1.size = l.size - 1 ∧
    (list_pop l true w).2.1.capacity =
      (if 1 < l.capacity ∧ l.size - 1 < l.capacity / 4 then l.capacity / 2
       else l.capacity) ∧
    (1 < l.capacity ∧ l.size - 1 < l.capacity / 4 →
      (list_pop l true w).2.1.capacity = max 1 (l.capacity / 2) ∧
      (list_pop l true w).2.1.capacity ≠ l.capacity) := by
  by_cases hsh : 1 < l.capacity ∧ l.size - 1 < l.capacity / 4
  · rw [list_pop_shrink_true_eq l w hd hs hsh]
    simp [hsh]
    omega
  · rw [list_pop_noshrink_eq l true w hd hs hsh]
    simp [hsh]

theorem pop_shrink_condition_witness :
    (⟨some [1, 2, 3, 4, 5, 6, 7, 8], 2, 8, 1⟩ : LState).data.isSome ∧
    0 < (⟨some [1, 2, 3, 4, 5, 6, 7, 8], 2, 8, 1⟩ : LState).size ∧
    (list_pop ⟨some [1, 2, 3, 4, 5, 6, 7, 8], 2, 8, 1⟩ true true).2.1.capacity = 4 := by
  refine ⟨by decide, by decide, ?_⟩
  have h := pop_shrink_condition ⟨some [1, 2, 3, 4, 5, 6, 7, 8], 2, 8, 1⟩ true
    (by decide) (by decide)
  rw [h.2.2.1]
  decide

/-- C5: if the shrink attempted after a successful pop fails with
`LIST_ERR_ALLOC`, pop returns `LIST_ERR_ALLOC` but the logical removal
stands: the size is decremented, the buffer and capacity are untouched, and
the removed element's bytes were copied into the supplied `out_value`. -/
theorem pop_shrink_failure_not_rolled_back (l : LState) (hd : l.data.isSome)
    (hs : 0 < l.size)
    (hsh : 1 < l.capacity ∧ l.size - 1 < l.capacity / 4) :
    (list_pop l false true).1 = LIST_ERR_ALLOC ∧
    (list_pop l false true).2.1.size = l.size - 1 ∧
    (list_pop l false true).2.1.capacity = l.capacity ∧
    (list_pop l false true).2.1.data = l.data ∧
    (list_pop l false true).2.2 =
      some (bytesAt (bufBytes l) ((l.size - 1) * l.elem_size) l.elem_size) := by
  rw [list_pop_shrink_false_eq l true hd hs hsh]
  simp

theorem pop_shrink_failure_witness :
    (list_pop ⟨some [9, 8, 7, 6, 5, 4, 3, 2], 2, 8, 1⟩ false true).1 = LIST_ERR_ALLOC ∧
    (list_pop ⟨some [9, 8, 7, 6, 5, 4, 3, 2], 2, 8, 1⟩ false true).2.1.size = 1 ∧
    (list_pop ⟨some [9, 8, 7, 6, 5, 4, 3, 2], 2, 8, 1⟩ false true).2.2 = some [8] := by
  have h := pop_shrink_failure_not_rolled_back ⟨some [9, 8, 7, 6, 5, 4, 3, 2], 2, 8, 1⟩
    (by decide) (by decide) (by decide)
  exact ⟨h.1, h.2.1, by rw [h.2.2.2.2]; decide⟩

/-! ### Claims about argument validation, destroy, and the free region -/

/-- C7 counterexample: on a valid list with an allocated buffer and
`size = 0`, `set` with a missing value pointer returns `LIST_OUT_OF_BOUNDS`
(the bounds check runs), not `LIST_ERR_INVALID`: `set` performs no
missing-value validation at all. -/
theorem set_missing_value_counterexample :
    list_set (some ⟨some [0], 0, 1, 1⟩) 0 none =
      some (LIST_OUT_OF_BOUNDS, some ⟨some [0], 0, 1, 1⟩) ∧
    LIST_OUT_OF_BOUNDS ≠ LIST_ERR_INVALID := by
  decide

/-- C7 amended: `set` validates only the target and the buffer, never the
value pointer.  With a missing value it still runs the target/buffer check
and the bounds check (so `index ≥ size` yields `LIST_OUT_OF_BOUNDS`), and
only when `index < size` does it dereference the missing value — undefined
behaviour, the model's `none`. -/
theorem set_does_not_validate_value (l : LState) (i : Nat) :
    list_set (some l) i none =
      (if l.data.isNone then some (LIST_ERR_INVALID, some l)
       else if l.size ≤ i then some (LIST_OUT_OF_BOUNDS, some l)
       else none) := by
  rfl

/-- C8 counterexample: `destroy` leaves `elem_size` untouched (here `4`,
not the empty-state `0`), so it does not reset all fields. -/
theorem destroy_elem_size_counterexample :
    list_destroy (some ⟨some [0, 0, 0, 0], 1, 1, 4⟩) = some ⟨none, 0, 0, 4⟩ ∧
    (4 : Nat) ≠ 0 := by
  decide

/-- C8 amended: `destroy` releases the buffer and resets `data`, `size`,
`capacity` to the empty state but leaves `elem_size` unchanged; it is
idempotent, and a missing target is a safe no-op. -/
theorem destroy_resets_all_but_elem_size (lst : Option LState) :
    list_destroy none = none ∧
    (∀ l : LState, list_destroy (some l) = some ⟨none, 0, 0, l.elem_size⟩) ∧
    list_destroy (list_destroy lst) = list_destroy lst := by
  refine ⟨rfl, fun l => rfl, ?_⟩
  cases lst <;> rfl

/-- C9: with a null buffer (`data` absent, as after a successful
capacity-0 init), `get` and `set` return `LIST_ERR_INVALID` for every
index — the missing-buffer check precedes the bounds check — while an empty
list with an allocated buffer reports `LIST_OUT_OF_BOUNDS` for the same
index-0 call. -/
theorem missing_buffer_check_precedes_bounds :
    (∀ (sz cap es i : Nat) (w : Bool),
      (list_get (some ⟨none, sz, cap, es⟩) i w).1 = LIST_ERR_INVALID) ∧
    (∀ (sz cap es i : Nat) (v : Option (List Nat)),
      list_set (some ⟨none, sz, cap, es⟩) i v =
        some (LIST_ERR_INVALID, some ⟨none, sz, cap, es⟩)) ∧
    (list_get (some ⟨some [0], 0, 1, 1⟩) 0 true).1 = LIST_OUT_OF_BOUNDS ∧
    (list_set (some ⟨some [0], 0, 1, 1⟩) 0 (some [7])).map Prod.fst =
      some LIST_OUT_OF_BOUNDS ∧
    (list_get (some ⟨none, 0, 0, 1⟩) 0 true).1 = LIST_ERR_INVALID ∧
    (list_set (some ⟨none, 0, 0, 1⟩) 0 (some [7])).map Prod.fst =
      some LIST_ERR_INVALID := by
  exact ⟨fun sz cap es i w => rfl, fun sz cap es i v => rfl, by decide, by decide,
    by decide, by decide⟩

/-- C6 counterexample: after a successful pop (here of the one element `5`
of a fully populated capacity-1 list) the freed slot still holds the stale
byte `5`, and likewise after `clear`; the bytes at element offsets
`[size, capacity)` are not zero. -/
theorem free_region_counterexample :
    list_push ⟨none, 0, 0, 1⟩ (some [5]) true = (LIST_OK, ⟨some [5], 1, 1, 1⟩) ∧
    (list_pop ⟨some [5], 1, 1, 1⟩ true true).1 = LIST_OK ∧
    freeRegionZeroed (list_pop ⟨some [5], 1, 1, 1⟩ true true).2.1 = false ∧
    list_clear ⟨some [5], 1, 1, 1⟩ = ⟨some [5], 0, 1, 1⟩ ∧
    freeRegionZeroed (list_clear ⟨some [5], 1, 1, 1⟩) = false := by
  decide

/-- C6 amended: only growth zero-fills: a growing `resize` zero-fills
exactly the added byte range `[old_capacity, new_capacity)`, while a pop
that triggers no shrink and a `clear` leave the buffer bytes unchanged, so
the freed slots in `[size, capacity)` may hold stale nonzero bytes. -/
theorem free_region_zeroed_only_on_growth :
    (∀ (l : LState) (nc : Nat),
      (bufBytes l).length = l.capacity * l.elem_size → l.capacity < nc →
      (bufBytes (list_resize l true nc).2).drop (l.capacity * l.elem_size) =
        List.replicate ((nc - l.capacity) * l.elem_size) 0) ∧
    (∀ (l : LState) (aOk w : Bool), l.data.isSome → 0 < l.size →
      ¬ (1 < l.capacity ∧ l.size - 1 < l.capacity / 4) →
      (list_pop l aOk w).2.1.data = l.data) ∧
    (∀ l : LState, (list_clear l).data = l.data ∧ (list_clear l).size = 0) := by
  refine ⟨?_, ?_, fun l => ⟨rfl, rfl⟩⟩
  · intro l nc hlen hlt
    unfold list_resize
    rw [if_neg (by omega), if_neg (by omega), if_neg (by simp)]
    simp only [hlt, if_pos, bufBytes, Option.getD_some]
    exact List.drop_left' hlen
  · intro l aOk w hd hs hsh
    rw [list_pop_noshrink_eq l aOk w hd hs hsh]

theorem free_region_zeroed_only_on_growth_witness :
    (bufBytes (list_resize ⟨some [5], 1, 1, 1⟩ true 2).2).drop 1 = [0] ∧
    (list_pop ⟨some [5], 1, 1, 1⟩ true true).2.1.data = some [5] := by
  constructor
  · have h := free_region_zeroed_only_on_growth.1 ⟨some [5], 1, 1, 1⟩ 2
      (by decide) (by decide)
    simpa using h
  · exact free_region_zeroed_only_on_growth.2.1 ⟨some [5], 1, 1, 1⟩ true true
      (by decide) (by decide) (by decide)

/-! ### Byte-level lemmas about `writeBytes` -/

lemma writeBytes_length (buf src : List Nat) (off : Nat)
    (h : off + src.length ≤ buf.length) :
    (writeBytes buf off src).length = buf.length := by
  simp [writeBytes]
  omega

lemma writeBytes_getElem?_left (buf src : List Nat) (off k : Nat)
    (hk : k < off) (hoff : off ≤ buf.length) :
    (writeBytes buf off src)[k]? = buf[k]? := by
  unfold writeBytes
  rw [List.append_assoc,
    List.getElem?_append_left (by rw [List.length_take]; omega),
    List.getElem?_take_of_lt hk]

lemma writeBytes_getElem?_right (buf src : List Nat) (off k : Nat)
    (hk : off + src.length ≤ k) (hoff : off ≤ buf.length) :
    (writeBytes buf off src)[k]? = buf[k]? := by
  unfold writeBytes
  have hlen : (buf.take off ++ src).length = off + src.length := by
    rw [List.length_append, List.length_take]
    omega
  rw [List.getElem?_append_right (by omega), hlen, List.getElem?_drop]
  congr 1
  omega

lemma bytesAt_writeBytes_self (buf src : List Nat) (off : Nat)
    (hoff : off ≤ buf.length) :
    bytesAt (writeBytes buf off src) off src.length = src := by
  unfold bytesAt writeBytes
  rw [List.append_assoc, List.drop_left' (by rw [List.length_take]; omega),
    List.take_left]

/-- C10: a successful in-bounds `set` changes only the `elem_size` bytes of
the addressed element: the status is `LIST_OK`, the `size`, `capacity` and
`elem_size` fields and the buffer's presence and length are unchanged, the
addressed slot now holds the supplied bytes, and every byte outside that
slot — the other elements and the free region alike — is unchanged. -/
theorem set_frame (l : LState) (i : Nat) (v : List Nat)
    (hd : l.data.isSome)
    (hbuf : (bufBytes l).length = l.capacity * l.elem_size)
    (hi : i < l.size) (hsz : l.size ≤ l.capacity)
    (hv : v.length = l.elem_size) :
    ∃ (l' : LState) (buf' : List Nat),
      list_set (some l) i (some v) = some (LIST_OK, some l') ∧
      l'.size = l.size ∧ l'.capacity = l.capacity ∧ l'.elem_size = l.elem_size ∧
      l'.data = some buf' ∧
      buf'.length = (bufBytes l).length ∧
      bytesAt buf' (i * l.elem_size) l.elem_size = v ∧
      ∀ k : Nat, k < i * l.elem_size ∨ i * l.elem_size + l.elem_size ≤ k →
        buf'[k]? = (bufBytes l)[k]? := by
  obtain ⟨buf, hb⟩ := Option.isSome_iff_exists.mp hd
  have hfit : i * l.elem_size + v.length ≤ (bufBytes l).length := by
    rw [hv, hbuf]
    calc i * l.elem_size + l.elem_size = (i + 1) * l.elem_size := by ring
      _ ≤ l.size * l.elem_size := Nat.mul_le_mul (by omega) (le_refl _)
      _ ≤ l.capacity * l.elem_size := Nat.mul_le_mul hsz (le_refl _)
  have hoff : i * l.elem_size ≤ (bufBytes l).length := by omega
  refine ⟨{ l with data := some (writeBytes (bufBytes l) (i * l.elem_size) v) },
    writeBytes (bufBytes l) (i * l.elem_size) v,
    ?_, rfl, rfl, rfl, rfl, ?_, ?_, ?_⟩
  · unfold list_set
    simp [hb, bufBytes]
    omega
  · exact writeBytes_length _ _ _ hfit
  · have := bytesAt_writeBytes_self (bufBytes l) v (i * l.elem_size) hoff
    rwa [hv] at this
  · intro k hk
    rcases hk with hk | hk
    · exact writeBytes_getElem?_left _ _ _ _ hk hoff
    · exact writeBytes_getElem?_right _ _ _ _ (by omega) hoff

theorem set_frame_witness :
    ∃ (l' : LState) (buf' : List Nat),
      list_set (some ⟨some [7, 8], 2, 2, 1⟩) 0 (some [9]) = some (LIST_OK, some l') ∧
      l'.size = (⟨some [7, 8], 2, 2, 1⟩ : LState).size ∧
      l'.capacity = (⟨some [7, 8], 2, 2, 1⟩ : LState).capacity ∧
      l'.elem_size = (⟨some [7, 8], 2, 2, 1⟩ : LState).elem_size ∧
      l'.data = some buf' ∧
      buf'.length = (bufBytes ⟨some [7, 8], 2, 2, 1⟩).length ∧
      bytesAt buf' (0 * (⟨some [7, 8], 2, 2, 1⟩ : LState).elem_size)
        (⟨some [7, 8], 2, 2, 1⟩ : LState).elem_size = [9] ∧
      ∀ k : Nat, k < 0 * (⟨some [7, 8], 2, 2, 1⟩ : LState).elem_size ∨
          0 * (⟨some [7, 8], 2, 2, 1⟩ : LState).elem_size +
            (⟨some [7, 8], 2, 2, 1⟩ : LState).elem_size ≤ k →
          buf'[k]? = (bufBytes ⟨some [7, 8], 2, 2, 1⟩)[k]? :=
  set_frame ⟨some [7, 8], 2, 2, 1⟩ 0 [9] (by decide) (by decide) (by decide)
    (by decide) (by decide)

/-! ### Reachable states and the size/capacity/buffer invariant -/


lemma inv_init (cap es : Nat) (aOk : Bool) (l : LState)
    (h : list_init_with_capacity cap es aOk = (LIST_OK, some l)) : SizeCapInv l := by
  unfold list_init_with_capacity at h
  by_cases h1 : es = 0
  · simp [h1] at h
  by_cases h2 : cap = 0
  · simp [h1, h2] at h
    cases h
    simp [SizeCapInv]
  cases aOk
  · simp [h1, h2] at h
  · simp [h1, h2] at h
    cases h
    simp [SizeCapInv, h2]

lemma list_grow_false_eq (l : LState) :
    list_grow l false = (LIST_ERR_ALLOC, l) := by
  unfold list_grow
  by_cases h : l.capacity = 0
  · rw [if_pos h]
    exact list_resize_fail_eq l 1 (by omega) (by omega)
  · rw [if_neg h]
    exact list_resize_fail_eq l (l.capacity * 2) (by omega) (by omega)

lemma list_grow_cap0_eq (l : LState) (h : l.capacity = 0) (hs : l.size = 0) :
    list_grow l true =
      (LIST_OK, ⟨some (bufBytes l ++ List.replicate l.elem_size 0), 0, 1, l.elem_size⟩) := by
  have hr := list_resize_grow_eq l 1 (by omega) (by omega) (by omega) (by omega)
  unfold list_grow
  rw [if_pos h, hr, h, hs]
  norm_num

lemma list_grow_pos_eq (l : LState) (h : l.capacity ≠ 0) (hs : l.size ≤ l.capacity) :
    list_grow l true =
      (LIST_OK,
       ⟨some (bufBytes l ++ List.replicate (l.capacity * l.elem_size) 0),
        l.size, l.capacity * 2, l.elem_size⟩) := by
  have hr := list_resize_grow_eq l (l.capacity * 2) (by omega) (by omega) (by omega)
    (by omega)
  unfold list_grow
  rw [if_neg h, hr]
  have h2 : l.capacity * 2 - l.capacity = l.capacity := by omega
  rw [h2]

lemma list_push_nogrow_eq (l : LState) (v : List Nat) (aOk : Bool)
    (h : l.size < l.capacity) :
    list_push l (some v) aOk =
      (LIST_OK,
       { l with
         data := some (writeBytes (bufBytes l) (l.size * l.elem_size) v),
         size := l.size + 1 }) := by
  simp only [list_push]
  rw [if_neg (by omega : ¬ l.capacity ≤ l.size)]

lemma list_push_grow_eq (l : LState) (v : List Nat) (aOk : Bool)
    (h : l.capacity ≤ l.size) :
    list_push l (some v) aOk =
      (match list_grow l aOk with
       | (LIST_OK, g) =>
         (LIST_OK,
          { g with
            data := some (writeBytes (bufBytes g) (g.size * g.elem_size) v),
            size := g.size + 1 })
       | (err, g) => (err, g)) := by
  simp only [list_push]
  rw [if_pos h]

lemma inv_push (l : LState) (v : Option (List Nat)) (aOk : Bool)
    (h : SizeCapInv l) : SizeCapInv (list_push l v aOk).2 := by
  obtain ⟨hsc, hcb⟩ := h
  cases v with
  | none => exact ⟨hsc, hcb⟩
  | some v =>
    by_cases hc : l.capacity ≤ l.size
    · rw [list_push_grow_eq l v aOk hc]
      cases aOk
      · rw [list_grow_false_eq]
        exact ⟨hsc, hcb⟩
      · by_cases hcz : l.capacity = 0
        · rw [list_grow_cap0_eq l hcz (by omega)]
          constructor
          · show 0 + 1 ≤ 1
            omega
          · show (1 : Nat) = 0 ↔ some _ = none
            simp
        · rw [list_grow_pos_eq l hcz hsc]
          constructor
          · show l.size + 1 ≤ l.capacity * 2
            omega
          · show l.capacity * 2 = 0 ↔ some _ = none
            simp
            omega
    · rw [list_push_nogrow_eq l v aOk (by omega)]
      constructor
      · show l.size + 1 ≤ l.capacity
        omega
      · show l.capacity = 0 ↔ some _ = none
        simp
        omega

lemma inv_pop (l : LState) (aOk w : Bool) (h : SizeCapInv l) :
    SizeCapInv (list_pop l aOk w).2.1 := by
  obtain ⟨hsc, hcb⟩ := h
  by_cases hvalid : l.data.isSome ∧ 0 < l.size
  · obtain ⟨hd, hs⟩ := hvalid
    by_cases hsh : 1 < l.capacity ∧ l.size - 1 < l.capacity / 4
    · cases aOk
      · rw [list_pop_shrink_false_eq l w hd hs hsh]
        constructor
        · show l.size - 1 ≤ l.capacity
          omega
        · show l.capacity = 0 ↔ l.data = none
          exact hcb
      · rw [list_pop_shrink_true_eq l w hd hs hsh]
        constructor
        · show l.size - 1 ≤ l.capacity / 2
          omega
        · show l.capacity / 2 = 0 ↔ some _ = none
          simp
          omega
    · rw [list_pop_noshrink_eq l aOk w hd hs hsh]
      constructor
      · show l.size - 1 ≤ l.capacity
        omega
      · show l.capacity = 0 ↔ l.data = none
        exact hcb
  · have hcond : (l.data.isNone ∨ l.size = 0) := by
      rcases hdata : l.data with _ | b
      · exact Or.inl (by simp [hdata])
      · right
        by_contra hs0
        exact hvalid ⟨by simp [hdata], by omega⟩
    have hpop : list_pop l aOk w = (LIST_ERR_INVALID, l, none) := by
      unfold list_pop
      rw [if_pos hcond]
    rw [hpop]
    exact ⟨hsc, hcb⟩
lemma inv_set (l : LState) (i : Nat) (v : Option (List Nat)) (st : list_status)
    (l' : LState) (h : SizeCapInv l)
    (hs : list_set (some l) i v = some (st, some l')) : SizeCapInv l' := by
  obtain ⟨hsc, hcb⟩ := h
  unfold list_set at hs
  by_cases h1 : l.data.isNone
  · simp [h1] at hs
    exact hs.2 ▸ ⟨hsc, hcb⟩
  by_cases h2 : l.size ≤ i
  · simp [h1, h2] at hs
    exact hs.2 ▸ ⟨hsc, hcb⟩
  cases v with
  | none => simp [h1, h2] at hs
  | some v =>
    simp [h1, h2] at hs
    refine hs.2 ▸ ⟨hsc, ?_, ?_⟩
    · intro hc0
      rw [hcb] at hc0
      simp [hc0] at h1
    · intro hd
      simp at hd

/-- C2: every state of a successfully initialized list reachable by any
sequence of public operations satisfies `size ≤ capacity`, with
`capacity = 0` exactly when the data pointer is absent; the induction over
`Reachable` shows every public operation preserves the invariant. -/
theorem reachable_size_cap_invariant (l : LState) (h : Reachable l) :
    l.size ≤ l.capacity ∧ (l.capacity = 0 ↔ l.data = none) := by
  induction h with
  | init cap es aOk l h => exact inv_init cap es aOk l h
  | push l v aOk h ih => exact inv_push l v aOk ih
  | pop l aOk w h ih => exact inv_pop l aOk w ih
  | set l i v st l' h hs ih => exact inv_set l i v st l' ih hs
  | clear l h ih => exact ⟨by simp [list_clear], ih.2⟩
  | destroy l l' h hd ih => by_cases h' : True <;> simp [list_destroy] at hd <;>
      exact hd ▸ ⟨le_refl 0, by simp⟩

theorem reachable_size_cap_invariant_witness :
    Reachable ⟨some [1, 2, 3, 0], 3, 4, 1⟩ ∧
    (⟨some [1, 2, 3, 0], 3, 4, 1⟩ : LState).size ≤
      (⟨some [1, 2, 3, 0], 3, 4, 1⟩ : LState).capacity := by
  have h0 : Reachable ⟨none, 0, 0, 1⟩ :=
    Reachable.init 0 1 true ⟨none, 0, 0, 1⟩ (by decide)
  have h1 : Reachable ⟨some [1], 1, 1, 1⟩ := by
    have := Reachable.push ⟨none, 0, 0, 1⟩ (some [1]) true h0
    simpa using (by decide :
      (list_push ⟨none, 0, 0, 1⟩ (some [1]) true).2 = ⟨some [1], 1, 1, 1⟩) ▸ this
  have h2 : Reachable ⟨some [1, 2], 2, 2, 1⟩ := by
    have := Reachable.push ⟨some [1], 1, 1, 1⟩ (some [2]) true h1
    simpa using (by decide :
      (list_push ⟨some [1], 1, 1, 1⟩ (some [2]) true).2 = ⟨some [1, 2], 2, 2, 1⟩) ▸ this
  have h3 : Reachable ⟨some [1, 2, 3, 0], 3, 4, 1⟩ := by
    have := Reachable.push ⟨some [1, 2], 2, 2, 1⟩ (some [3]) true h2
    simpa using (by decide :
      (list_push ⟨some [1, 2], 2, 2, 1⟩ (some [3]) true).2 =
        ⟨some [1, 2, 3, 0], 3, 4, 1⟩) ▸ this
  exact ⟨h3, (reachable_size_cap_invariant _ h3).1⟩

/-! ### Capacity growth: doubling to the least power of two -/

lemma push_size_cap (l : LState) (v : List Nat) (hsc : l.size ≤ l.capacity) :
    (list_push l (some v) true).2.size = l.size + 1 ∧
    (list_push l (some v) true).2.capacity =
      (if l.size = l.capacity then (if l.capacity = 0 then 1 else l.capacity * 2)
       else l.capacity) := by
  by_cases hc : l.capacity ≤ l.size
  · have heq : l.size = l.capacity := by omega
    rw [list_push_grow_eq l v true hc]
    by_cases hcz : l.capacity = 0
    · rw [list_grow_cap0_eq l hcz (by omega)]
      constructor
      · show 0 + 1 = l.size + 1
        omega
      · show 1 = _
        rw [if_pos heq, if_pos hcz]
    · rw [list_grow_pos_eq l hcz hsc]
      constructor
      · show l.size + 1 = l.size + 1
        rfl
      · show l.capacity * 2 = _
        rw [if_pos heq, if_neg hcz]
  · rw [list_push_nogrow_eq l v true (by omega)]
    exact ⟨rfl, by rw [if_neg (by omega)]⟩

lemma pushAll_cap_inv (vs : List (List Nat)) :
    ∀ (l : LState) (k : Nat), l.size = k → 1 ≤ k →
      (∃ m, l.capacity = 2 ^ m) → k ≤ l.capacity → l.capacity < 2 * k →
      (pushAll l vs).size = k + vs.length ∧
      (∃ m, (pushAll l vs).capacity = 2 ^ m) ∧
      k + vs.length ≤ (pushAll l vs).capacity ∧
      (pushAll l vs).capacity < 2 * (k + vs.length) := by
  induction vs with
  | nil =>
    intro l k h1 h2 h3 h4 h5
    exact ⟨by simpa [pushAll] using h1, by simpa [pushAll] using h3,
      by simpa [pushAll] using h4, by simpa [pushAll] using h5⟩
  | cons v rest ih =>
    intro l k h1 h2 h3 h4 h5
    obtain ⟨m, hm⟩ := h3
    have hstep : pushAll l (v :: rest) = pushAll (list_push l (some v) true).2 rest := rfl
    rw [hstep]
    have hpc := push_size_cap l v (by omega)
    by_cases heq : l.size = l.capacity
    · have hcz : l.capacity ≠ 0 := by omega
      have hc' : (list_push l (some v) true).2.capacity = l.capacity * 2 := by
        rw [hpc.2, if_pos heq, if_neg hcz]
      obtain ⟨a1, a2, a3, a4⟩ := ih (list_push l (some v) true).2 (k + 1)
        (by omega) (by omega) ⟨m + 1, by rw [hc', hm]; ring⟩ (by omega) (by omega)
      refine ⟨by simp only [List.length_cons]; omega, a2,
        by simp only [List.length_cons]; omega,
        by simp only [List.length_cons]; omega⟩
    · have hc' : (list_push l (some v) true).2.capacity = l.capacity := by
        rw [hpc.2, if_neg heq]
      obtain ⟨a1, a2, a3, a4⟩ := ih (list_push l (some v) true).2 (k + 1)
        (by omega) (by omega) ⟨m, by omega⟩ (by omega) (by omega)
      refine ⟨by simp only [List.length_cons]; omega, a2,
        by simp only [List.length_cons]; omega,
        by simp only [List.length_cons]; omega⟩

/-- C3: pushing `k ≥ 1` elements into a list initialized with capacity 0
(all pushes succeeding) leaves the capacity at the smallest power of two
`≥ k`: the final capacity is a power of two, at least `k`, and no smaller
power of two `≥ k` exists; and each grow targets capacity `1` when the
current capacity is `0` and twice the current capacity otherwise. -/
theorem growth_doubling (es : Nat) (vs : List (List Nat)) (hk : 1 ≤ vs.length) :
    (∃ m : Nat, (pushAll ⟨none, 0, 0, es⟩ vs).capacity = 2 ^ m) ∧
    vs.length ≤ (pushAll ⟨none, 0, 0, es⟩ vs).capacity ∧
    (∀ p : Nat, (∃ mp : Nat, p = 2 ^ mp) → vs.length ≤ p →
      (pushAll ⟨none, 0, 0, es⟩ vs).capacity ≤ p) ∧
    (∀ (l' : LState) (aOk : Bool),
      list_grow l' aOk =
        list_resize l' aOk (if l'.capacity = 0 then 1 else l'.capacity * 2)) := by
  cases vs with
  | nil => simp at hk
  | cons v rest =>
    have hstep : pushAll ⟨none, 0, 0, es⟩ (v :: rest) =
        pushAll (list_push ⟨none, 0, 0, es⟩ (some v) true).2 rest := rfl
    have hl1 : (list_push ⟨none, 0, 0, es⟩ (some v) true).2.size = 1 ∧
        (list_push ⟨none, 0, 0, es⟩ (some v) true).2.capacity = 1 := by
      rw [list_push_grow_eq ⟨none, 0, 0, es⟩ v true (Nat.le_refl 0),
        list_grow_cap0_eq ⟨none, 0, 0, es⟩ rfl rfl]
      exact ⟨rfl, rfl⟩
    obtain ⟨a1, a2, a3, a4⟩ := pushAll_cap_inv rest (list_push ⟨none, 0, 0, es⟩ (some v) true).2
      1 hl1.1 (by omega) ⟨0, by rw [hl1.2]; norm_num⟩ (by omega) (by omega)
    rw [hstep]
    refine ⟨a2, by simp only [List.length_cons]; omega, ?_, fun l' aOk => rfl⟩
    intro p hp hkp
    obtain ⟨mp, hmp⟩ := hp
    obtain ⟨mc, hmc⟩ := a2
    by_contra hlt
    have hplt : p < (pushAll (list_push ⟨none, 0, 0, es⟩ (some v) true).2 rest).capacity := by
      omega
    have hmlt : mp < mc := by
      rw [hmp, hmc] at hplt
      exact (Nat.pow_lt_pow_iff_right (by norm_num)).mp hplt
    have h2p : 2 ^ (mp + 1) ≤ 2 ^ mc :=
      Nat.pow_le_pow_right (by norm_num) (by omega)
    have h2p' : (2 : Nat) ^ (mp + 1) = 2 * p := by
      rw [hmp]
      ring
    simp only [List.length_cons] at hkp ⊢
    omega

theorem growth_doubling_witness :
    1 ≤ ([[1], [2], [3]] : List (List Nat)).length ∧
    ([[1], [2], [3]] : List (List Nat)).length ≤
      (pushAll ⟨none, 0, 0, 1⟩ [[1], [2], [3]]).capacity :=
  ⟨by decide, (growth_doubling 1 [[1], [2], [3]] (by decide)).2.1⟩

/-! ### Round trip: pushed values are read back byte-for-byte -/

lemma writeBytes_take_eq (buf v : List Nat) (off : Nat) (hoff : off ≤ buf.length) :
    (writeBytes buf off v).take (off + v.length) = buf.take off ++ v := by
  unfold writeBytes
  have hlen : (buf.take off ++ v).length = off + v.length := by
    simp
    omega
  exact List.take_left' hlen

lemma join_extract (es : Nat) :
    ∀ (vs : List (List Nat)) (i : Nat) (hi : i < vs.length),
      (∀ v ∈ vs, v.length = es) →
      ((vs.flatten).drop (i * es)).take es = vs.get ⟨i, hi⟩ := by
  intro vs
  induction vs with
  | nil =>
    intro i hi
    simp at hi
  | cons v rest ih =>
    intro i hi h
    have hv : v.length = es := h v (by simp)
    cases i with
    | zero =>
      simp only [List.flatten_cons, Nat.zero_mul, List.drop_zero, List.get]
      exact List.take_left' hv
    | succ j =>
      have hdrop : ((v :: rest).flatten).drop ((j + 1) * es) =
          (rest.flatten).drop (j * es) := by
        simp only [List.flatten_cons]
        have harith : (j + 1) * es = v.length + j * es := by
          rw [hv]
          ring
        rw [harith, List.drop_append]
      rw [hdrop]
      have hj : j < rest.length := by
        simp at hi
        omega
      rw [ih j hj (fun w hw => h w (by simp [hw]))]
      simp [List.get]


lemma pushedInv_init (es : Nat) : PushedInv ⟨none, 0, 0, es⟩ es [] := by
  refine ⟨rfl, rfl, Nat.le_refl 0, fun _ => rfl, by simp [bufBytes], by simp [bufBytes]⟩

lemma list_push_full_eq (l : LState) (v : List Nat) (g : LState)
    (hc : l.capacity ≤ l.size) (hg : list_grow l true = (LIST_OK, g)) :
    (list_push l (some v) true).2 =
      ⟨some (writeBytes (bufBytes g) (g.size * g.elem_size) v), g.size + 1,
       g.capacity, g.elem_size⟩ := by
  rw [list_push_grow_eq l v true hc, hg]

lemma pushedInv_push (l : LState) (es : Nat) (vs : List (List Nat)) (v : List Nat)
    (hv : v.length = es) (h : PushedInv l es vs) :
    PushedInv (list_push l (some v) true).2 es (vs ++ [v]) := by
  obtain ⟨hes, hsize, hcap, hsome, hlen, hcontent⟩ := h
  by_cases hc : l.capacity ≤ l.size
  · have heq : l.size = l.capacity := by omega
    by_cases hcz : l.capacity = 0
    · -- first allocation: capacity 0 → 1
      have hsz0 : l.size = 0 := by omega
      have hvs0 : vs = [] := List.length_eq_zero.mp (by omega)
      have hbuf0 : l.data.getD [] = [] := by
        have : (bufBytes l).length = 0 := by rw [hlen, hcz]; ring
        simpa [bufBytes] using List.length_eq_zero.mp this
      rw [list_push_full_eq l v _ hc (list_grow_cap0_eq l hcz hsz0)]
      subst hvs0
      refine ⟨hes, by simp, by simp, by simp, ?_, ?_⟩
      · simp only [bufBytes, Option.getD_some]
        rw [hbuf0]
        simp only [List.nil_append, Nat.zero_mul, Nat.one_mul]
        rw [writeBytes_length _ _ _ (by simp [hes, hv])]
        simp [hes]
      · simp only [bufBytes, Option.getD_some]
        rw [hbuf0]
        simp only [List.nil_append, Nat.zero_mul]
        have hw := writeBytes_take_eq (List.replicate l.elem_size 0) v 0 (by simp)
        simp only [Nat.zero_add, List.take_zero, List.nil_append] at hw
        have harith : (0 + 1) * es = v.length := by rw [hv]; ring
        rw [harith, hw]
        simp
    · -- doubling growth
      rw [list_push_full_eq l v _ hc (list_grow_pos_eq l hcz hcap)]
      have hlen2 : (l.data.getD [] ++ List.replicate (l.capacity * l.elem_size) 0).length =
          (l.capacity * 2) * es := by
        have : (bufBytes l).length = l.capacity * es := hlen
        simp only [bufBytes] at this
        simp [this, hes]
        ring
      have hfit2 : l.size * es + es ≤ (l.capacity * 2) * es := by
        have h1 : (l.size + 1) * es ≤ (l.capacity * 2) * es :=
          Nat.mul_le_mul (by omega) (Nat.le_refl es)
        calc l.size * es + es = (l.size + 1) * es := by ring
          _ ≤ (l.capacity * 2) * es := h1
      refine ⟨hes, by simp [hsize], by simp; omega, by simp, ?_, ?_⟩
      · simp only [bufBytes, Option.getD_some]
        rw [writeBytes_length _ _ _ (by rw [hlen2, hes, hv]; exact hfit2), hlen2]
      · simp only [bufBytes, Option.getD_some]
        have hoff : l.size * l.elem_size ≤
            (l.data.getD [] ++ List.replicate (l.capacity * l.elem_size) 0).length := by
          rw [hlen2, hes]
          omega
        have hw := writeBytes_take_eq
          (l.data.getD [] ++ List.replicate (l.capacity * l.elem_size) 0) v
          (l.size * l.elem_size) hoff
        have harith : l.size * l.elem_size + v.length = (l.size + 1) * es := by
          rw [hv, hes]
          ring
        rw [harith] at hw
        have htake : (l.data.getD [] ++
            List.replicate (l.capacity * l.elem_size) 0).take (l.size * l.elem_size) =
            (l.data.getD []).take (l.size * l.elem_size) := by
          apply List.take_append_of_le_length
          have hl' : (l.data.getD []).length = l.capacity * es := by
            simpa [bufBytes] using hlen
          rw [hl', hes]
          exact Nat.mul_le_mul hcap (Nat.le_refl es)
        rw [hw, htake]
        have hcontent' : (l.data.getD []).take (l.size * es) = vs.flatten := by
          simpa [bufBytes] using hcontent
        rw [hes, hcontent']
        simp
  · -- room available: no growth
    rw [list_push_nogrow_eq l v true (by omega)]
    have hfit3 : l.size * es + es ≤ l.capacity * es := by
      have h1 : (l.size + 1) * es ≤ l.capacity * es :=
        Nat.mul_le_mul (by omega) (Nat.le_refl es)
      calc l.size * es + es = (l.size + 1) * es := by ring
        _ ≤ l.capacity * es := h1
    refine ⟨hes, by simp [hsize], by simp; omega, by simp, ?_, ?_⟩
    · simp only [bufBytes, Option.getD_some]
      have hlen' : (l.data.getD []).length = l.capacity * es := by
        simpa [bufBytes] using hlen
      rw [writeBytes_length _ _ _ (by rw [hlen', hes, hv]; exact hfit3), hlen']
    · simp only [bufBytes, Option.getD_some]
      have hlen' : (l.data.getD []).length = l.capacity * es := by
        simpa [bufBytes] using hlen
      have hoff : l.size * l.elem_size ≤ (l.data.getD []).length := by
        rw [hlen', hes]
        omega
      have hw := writeBytes_take_eq (l.data.getD []) v (l.size * l.elem_size) hoff
      have harith : l.size * l.elem_size + v.length = (l.size + 1) * es := by
        rw [hv, hes]
        ring
      rw [harith] at hw
      have hcontent' : (l.data.getD []).take (l.size * es) = vs.flatten := by
        simpa [bufBytes] using hcontent
      rw [hw, hes, hcontent']
      simp

lemma pushedInv_pushAll (vs : List (List Nat)) :
    ∀ (l : LState) (acc : List (List Nat)) (es : Nat),
      (∀ v ∈ vs, v.length = es) → PushedInv l es acc →
      PushedInv (pushAll l vs) es (acc ++ vs) := by
  induction vs with
  | nil =>
    intro l acc es h hInv
    simpa [pushAll] using hInv
  | cons v rest ih =>
    intro l acc es h hInv
    have hstep : pushAll l (v :: rest) = pushAll (list_push l (some v) true).2 rest := rfl
    rw [hstep]
    have hnext := pushedInv_push l es acc v (h v (by simp)) hInv
    have hrest := ih (list_push l (some v) true).2 (acc ++ [v]) es
      (fun w hw => h w (by simp [hw])) hnext
    simpa [List.append_assoc] using hrest

lemma list_grow_true_ok (l : LState) : (list_grow l true).1 = LIST_OK := by
  unfold list_grow list_resize
  by_cases hcz : l.capacity = 0
  · rw [if_pos hcz, if_neg one_ne_zero, if_neg (by omega : (1 : Nat) ≠ l.capacity),
      if_neg (by simp : ¬ (true = false))]
  · rw [if_neg hcz, if_neg (by omega : l.capacity * 2 ≠ 0)]
    by_cases h2 : l.capacity * 2 = l.capacity
    · rw [if_pos h2]
    · rw [if_neg h2, if_neg (by simp : ¬ (true = false))]

lemma list_push_true_ok (l : LState) (v : List Nat) :
    (list_push l (some v) true).1 = LIST_OK := by
  by_cases hc : l.capacity ≤ l.size
  · rw [list_push_grow_eq l v true hc]
    rcases hg : list_grow l true with ⟨st, g⟩
    have hst : st = LIST_OK := by
      have h := list_grow_true_ok l
      rw [hg] at h
      exact h
    rw [hst]
  · rw [list_push_nogrow_eq l v true (by omega)]

lemma list_get_pushedInv (l : LState) (es : Nat) (vs : List (List Nat)) (i : Nat)
    (h : PushedInv l es vs) (hlenv : ∀ v ∈ vs, v.length = es) (hi : i < vs.length) :
    list_get (some l) i true = (LIST_OK, some (vs.get ⟨i, hi⟩)) := by
  obtain ⟨hes, hsize, hcap, hsome, hlen, hcontent⟩ := h
  have hd : l.data ≠ none := by
    intro hn
    have := hsome hn
    omega
  obtain ⟨buf, hb⟩ := Option.ne_none_iff_exists'.mp hd
  simp only [list_get]
  rw [if_neg (by simp [hb] : ¬ (l.data.isNone ∨ (true : Bool) = false)),
    if_neg (by omega : ¬ l.size ≤ i)]
  have hkey : bytesAt (bufBytes l) (i * l.elem_size) l.elem_size = vs.get ⟨i, hi⟩ := by
    unfold bytesAt
    rw [hes]
    have h1 : (i + 1) * es ≤ l.size * es := Nat.mul_le_mul (by omega) (Nat.le_refl es)
    have h2 : i * es + es = (i + 1) * es := by ring
    have hsplit : ((bufBytes l).drop (i * es)).take es =
        (((bufBytes l).take (l.size * es)).drop (i * es)).take es := by
      rw [List.drop_take, List.take_take]
      congr 1
      omega
    rw [hsplit, hcontent]
    exact join_extract es vs i hi hlenv
  rw [hkey]

/-- C1: pushing `v0 .. v(n-1)` (each exactly `elem_size` bytes, per the
caller contract) into a freshly initialized list, with every push
succeeding (which it does whenever the allocator succeeds), makes `get i`
return `LIST_OK` together with exactly the bytes of `vi`, for every
`i < n`. -/
theorem push_get_round_trip (es : Nat) (vs : List (List Nat)) (i : Nat)
    (hes : 0 < es) (hlenv : ∀ v ∈ vs, v.length = es) (hi : i < vs.length) :
    list_init es true = (LIST_OK, some ⟨none, 0, 0, es⟩) ∧
    (∀ (l : LState) (v : List Nat), (list_push l (some v) true).1 = LIST_OK) ∧
    list_get (some (pushAll ⟨none, 0, 0, es⟩ vs)) i true =
      (LIST_OK, some (vs.get ⟨i, hi⟩)) := by
  refine ⟨?_, list_push_true_ok, ?_⟩
  · unfold list_init list_init_with_capacity
    rw [if_neg (by omega : es ≠ 0), if_pos rfl]
  · have hInv := pushedInv_pushAll vs ⟨none, 0, 0, es⟩ [] es hlenv (pushedInv_init es)
    simp only [List.nil_append] at hInv
    exact list_get_pushedInv _ es vs i hInv hlenv hi

theorem push_get_round_trip_witness :
    list_get (some (pushAll ⟨none, 0, 0, 1⟩ [[5], [6], [7]])) 1 true =
      (LIST_OK, some (([[5], [6], [7]] : List (List Nat)).get ⟨1, by decide⟩)) :=
  (push_get_round_trip 1 [[5], [6], [7]] 1 (by decide) (by decide) (by decide)).2.2
